import Mathlib

/-!
Shallow embedding of the media timeline processing engine of the repository
(`Backend/services/video_processing.py` and `Backend/services/subtitles.py`).

Times, durations and amplitudes are rationals.  The moviepy media-codec
collaborator (external to the repository) is abstracted by the duration laws
the specification assigns to it in sections 4.4 and 6: `subclip(s, e)` yields
a clip of duration `e - s`, and the crossfade concatenation of `n` clips has
duration `sum of durations - (n - 1) * crossfade`.
-/

/-- A cut-profile segment as read from the profile JSON by
`cut_video_with_profile`: `segment.get("start_time")` and
`segment.get("end_time")` return `None` when the key is missing, modelled by
`Option ℚ`. -/
structure ProfileSegment where
  start_time : Option ℚ
  end_time : Option ℚ
deriving DecidableEq

/-- The keep test of `cut_video_with_profile` (line 31 of
`video_processing.py`): a profile segment contributes the subclip range
`(start_time, end_time)` exactly when both fields are present
(`start_time is not None and end_time is not None`); no other validation is
performed. -/
def keepSegment (s : ProfileSegment) : Option (ℚ × ℚ) :=
  match s.start_time, s.end_time with
  | some a, some b => some (a, b)
  | _, _ => none

/-- Loop body of the segment-selection loop of `cut_video_with_profile`
(lines 27-33): append the subclip range when both endpoints are present,
otherwise leave the accumulator unchanged. -/
def cutStep (acc : List (ℚ × ℚ)) (s : ProfileSegment) : List (ℚ × ℚ) :=
  match s.start_time, s.end_time with
  | some a, some b => acc ++ [(a, b)]
  | _, _ => acc

/-- The segment-selection loop of `cut_video_with_profile` (lines 26-33). -/
def cut_segments (profile : List ProfileSegment) : List (ℚ × ℚ) :=
  profile.foldl cutStep []

/-- Observable behaviour of `cut_video_with_profile` at the timeline level:
the list of selected subclip ranges in loop order, or the
`ValueError("No valid segments found in cut profile")` raised when no segment
had both endpoints (lines 36-41). -/
def cut_video_with_profile (profile : List ProfileSegment) :
    Except String (List (ℚ × ℚ)) :=
  let segments := cut_segments profile
  if segments.isEmpty then
    Except.error "No valid segments found in cut profile"
  else
    Except.ok segments

lemma cut_foldl (profile : List ProfileSegment) (acc : List (ℚ × ℚ)) :
    profile.foldl cutStep acc = acc ++ profile.filterMap keepSegment := by
  induction profile generalizing acc with
  | nil => simp
  | cons s rest ih =>
    cases ha : s.start_time <;> cases hb : s.end_time <;>
      simp [List.foldl_cons, cutStep, keepSegment, ha, hb, ih]

/-- C1 counterexample: a profile whose only segment is
`start_time = 5, end_time = 2` (against, say, `source_duration = 10`)
violates `start_time < end_time`, yet `cut_video_with_profile` keeps it and
succeeds instead of dropping it and failing with the empty-timeline error. -/
theorem cut_profile_keeps_reversed_segment :
    cut_video_with_profile [⟨some 5, some 2⟩] = Except.ok [((5 : ℚ), (2 : ℚ))] ∧
      ¬ ((5 : ℚ) < 2) := by
  refine ⟨rfl, by norm_num⟩

/-- C1 amended: the applied timeline contains exactly the segments whose
`start_time` and `end_time` fields are both present, in the order given (no
sorting); no validation against `0 ≤ start_time < end_time ≤ source_duration`
is performed, and the call fails only when every segment lacks one of the two
fields. -/
theorem cut_profile_keeps_present_fields (profile : List ProfileSegment)
    (l : List (ℚ × ℚ)) :
    cut_video_with_profile profile = Except.ok l ↔
      l = profile.filterMap keepSegment ∧ l ≠ [] := by
  unfold cut_video_with_profile cut_segments
  rw [cut_foldl]
  simp only [List.nil_append]
  rcases h : profile.filterMap keepSegment with _ | ⟨p, rest⟩
  · simp
  · simp only [List.isEmpty_cons, if_neg Bool.false_ne_true, Except.ok.injEq]
    constructor
    · rintro rfl
      exact ⟨rfl, by simp⟩
    · rintro ⟨rfl, -⟩
      rfl

/-- Duration law of the collaborator's crossfade concatenation, modelled from
the spec (section 4.4 step 2 and section 6): `concatenate_videoclips` with
`method="compose"` and `padding = -crossfade` starts each clip `crossfade`
before the naive end of the previous one, so `n` clips of total content
duration `sum` yield a clip of duration `sum - (n - 1) * crossfade`.  The
`padding` argument below is the (negative) padding itself. -/
def concatenate_duration (durations : List ℚ) (padding : ℚ) : ℚ :=
  durations.sum + ((durations.length : ℚ) - 1) * padding

/-- Duration law of the collaborator's `subclip(t_start, t_end)`, modelled
from the spec (sections 4.4 and 6): the produced clip has duration
`t_end - t_start`.  The parent clip's duration is not consulted (moviepy sets
the new duration without checking `t_end` against it). -/
def subclip_duration (parentDuration t_start t_end : ℚ) : ℚ :=
  t_end - t_start

/-- Duration of the first-pass montage of `create_satisfy_montage`
(lines 155-188): the intro clip (untouched) followed by the effect-processed
clips, joined with `padding = -crossfade`.  `speedx(1.25)` divides each
non-intro clip's duration by `5/4`; `fl_image` (saturation boost) leaves
durations unchanged. -/
def montage_current_duration (introDuration : ℚ) (clipDurations : List ℚ)
    (crossfade : ℚ) : ℚ :=
  concatenate_duration (introDuration :: clipDurations.map (fun d => d / (5 / 4)))
    (-crossfade)

/-- The repetition count of the extension branch of `create_satisfy_montage`
(line 191): `int(np.ceil(target_duration / current_duration))`. -/
def montage_repetitions (current target : ℚ) : ℕ :=
  (⌈target / current⌉).toNat

/-- Duration of the extended sequence built on lines 192-198: the entire
already-assembled montage repeated `montage_repetitions` times, joined with
the same `padding = -crossfade`. -/
def montage_extended_duration (current target crossfade : ℚ) : ℚ :=
  concatenate_duration (List.replicate (montage_repetitions current target) current)
    (-crossfade)

/-- Duration returned by `create_satisfy_montage` (lines 186-203): if the
first-pass duration falls short of `target_duration` the extended sequence is
built and trimmed with `subclip(0, target_duration)`, otherwise the first-pass
result is returned unchanged.  No validation of `target_duration` is
performed anywhere in the function. -/
def create_satisfy_montage_duration (introDuration : ℚ) (clipDurations : List ℚ)
    (target crossfade : ℚ) : ℚ :=
  let current := montage_current_duration introDuration clipDurations crossfade
  if current < target then
    subclip_duration (montage_extended_duration current target crossfade) 0 target
  else
    current

/-- C3 counterexample: with `target_duration = 0` (a non-positive target) and
a 10-second intro, `create_satisfy_montage` raises no configuration error: it
returns the concatenated montage unchanged.  The function body contains no
validation of `target_duration` at all. -/
theorem montage_accepts_nonpositive_target :
    create_satisfy_montage_duration 10 [] 0 (1 / 2) = 10 := by
  norm_num [create_satisfy_montage_duration, montage_current_duration,
    concatenate_duration]

/-- C3 amended: `create_satisfy_montage` performs no validation of
`target_duration`: for `target_duration ≤ 0` (and a positive first-pass
duration) no error of any kind is raised, the extension branch is skipped,
and the concatenated first-pass duration is returned as-is. -/
theorem montage_nonpositive_target_returns_current (introDuration : ℚ)
    (clipDurations : List ℚ) (target crossfade : ℚ) (ht : target ≤ 0)
    (hc : 0 < montage_current_duration introDuration clipDurations crossfade) :
    create_satisfy_montage_duration introDuration clipDurations target crossfade =
      montage_current_duration introDuration clipDurations crossfade := by
  unfold create_satisfy_montage_duration
  exact if_neg (not_lt.mpr (ht.trans hc.le))

/-- C3 amended, witness at `introDuration = 10`, no further clips,
`target_duration = -1`, `crossfade = 1/2`. -/
theorem montage_nonpositive_target_returns_current_witness :
    create_satisfy_montage_duration 10 [] (-1) (1 / 2) =
      montage_current_duration 10 [] (1 / 2) :=
  montage_nonpositive_target_returns_current 10 [] (-1) (1 / 2) (by norm_num)
    (by norm_num [montage_current_duration, concatenate_duration])

/-- C4: when the first-pass duration is positive and strictly below
`target_duration`, the whole assembled sequence is repeated
`ceil(target_duration / current_duration)` times with the same crossfade join
(the extended sequence's duration is `r * current - (r - 1) * crossfade` for
`r` repetitions), and after the `subclip(0, target_duration)` trim the
returned duration is exactly `target_duration`. -/
theorem montage_extends_to_target (introDuration : ℚ) (clipDurations : List ℚ)
    (target crossfade : ℚ)
    (h0 : 0 < montage_current_duration introDuration clipDurations crossfade)
    (h1 : montage_current_duration introDuration clipDurations crossfade < target) :
    create_satisfy_montage_duration introDuration clipDurations target crossfade =
      target ∧
    montage_extended_duration
        (montage_current_duration introDuration clipDurations crossfade) target
        crossfade =
      (montage_repetitions
          (montage_current_duration introDuration clipDurations crossfade) target : ℚ) *
          montage_current_duration introDuration clipDurations crossfade -
        ((montage_repetitions
            (montage_current_duration introDuration clipDurations crossfade) target : ℚ) -
          1) * crossfade := by
  constructor
  · unfold create_satisfy_montage_duration
    rw [if_pos h1]
    simp [subclip_duration]
  · unfold montage_extended_duration concatenate_duration
    rw [List.sum_replicate, List.length_replicate]
    push_cast [nsmul_eq_mul]
    ring

/-- C4 witness at `introDuration = 1`, no further clips, `target = 3`,
`crossfade = 1/2`: the first-pass duration is `1 < 3`, three repetitions are
used, and the result is exactly `3`. -/
theorem montage_extends_to_target_witness :
    create_satisfy_montage_duration 1 [] 3 (1 / 2) = 3 ∧
    montage_extended_duration (montage_current_duration 1 [] (1 / 2)) 3 (1 / 2) =
      (montage_repetitions (montage_current_duration 1 [] (1 / 2)) 3 : ℚ) *
          montage_current_duration 1 [] (1 / 2) -
        ((montage_repetitions (montage_current_duration 1 [] (1 / 2)) 3 : ℚ) - 1) *
          (1 / 2) :=
  montage_extends_to_target 1 [] 3 (1 / 2)
    (by norm_num [montage_current_duration, concatenate_duration])
    (by norm_num [montage_current_duration, concatenate_duration])

/-- C9: when the first-pass duration already reaches `target_duration`, the
extension branch is not taken and `create_satisfy_montage` returns the
concatenated (non-extended) duration unchanged — no trimming to
`target_duration` occurs. -/
theorem montage_no_extension_at_or_above_target (introDuration : ℚ)
    (clipDurations : List ℚ) (target crossfade : ℚ)
    (h : target ≤ montage_current_duration introDuration clipDurations crossfade) :
    create_satisfy_montage_duration introDuration clipDurations target crossfade =
      montage_current_duration introDuration clipDurations crossfade := by
  unfold create_satisfy_montage_duration
  exact if_neg (not_lt.mpr h)

/-- C9 witness at `introDuration = 5`, no further clips, `target = 3`,
`crossfade = 1`: the first-pass duration `5` exceeds the target `3` and is
returned unchanged. -/
theorem montage_no_extension_at_or_above_target_witness :
    create_satisfy_montage_duration 5 [] 3 1 =
      montage_current_duration 5 [] 1 :=
  montage_no_extension_at_or_above_target 5 [] 3 1
    (by norm_num [montage_current_duration, concatenate_duration])

/-- State of the two-state silence machine of `remove_silence`
(lines 88-90 of `video_processing.py`): the emitted non-silent segments, the
`is_silent` flag (initially `true`) and the pending `segment_start`
(initially `0`). -/
structure SilenceState where
  segments : List (ℚ × ℚ)
  is_silent : Bool
  segment_start : ℚ
deriving DecidableEq

/-- One window step of the silence machine (lines 101-109).  A window is the
pair `(current_time, chunk_amplitude)` of the per-0.1s loop; on a
silent-to-non-silent transition the start is recorded, on a
non-silent-to-silent transition the candidate segment is emitted when its
length reaches `min_silence_duration`, otherwise the state is unchanged. -/
def silenceStep (silence_threshold min_silence_duration : ℚ) (s : SilenceState)
    (w : ℚ × ℚ) : SilenceState :=
  if s.is_silent ∧ silence_threshold < w.2 then
    { s with segment_start := w.1, is_silent := false }
  else if ¬ s.is_silent ∧ w.2 ≤ silence_threshold then
    { s with
        segments :=
          if min_silence_duration ≤ w.1 - s.segment_start then
            s.segments ++ [(s.segment_start, w.1)]
          else s.segments,
        is_silent := true }
  else s

/-- The non-silent segments computed by `remove_silence` (lines 88-113) from
an amplitude trace: the window loop folded from the initial state, followed by
the terminal emission `(segment_start, audio.duration)` when the trace ends in
the non-silent state.  `D` is the total duration `audio.duration`. -/
def remove_silence_segments (silence_threshold min_silence_duration D : ℚ)
    (trace : List (ℚ × ℚ)) : List (ℚ × ℚ) :=
  let final := trace.foldl (silenceStep silence_threshold min_silence_duration)
    ⟨[], true, 0⟩
  if final.is_silent then final.segments
  else final.segments ++ [(final.segment_start, D)]

lemma silence_foldl_above_threshold (silence_threshold min_silence_duration : ℚ)
    (trace : List (ℚ × ℚ)) (segments : List (ℚ × ℚ)) (start : ℚ)
    (h : ∀ w ∈ trace, silence_threshold < w.2) :
    trace.foldl (silenceStep silence_threshold min_silence_duration)
        ⟨segments, false, start⟩ = ⟨segments, false, start⟩ := by
  induction trace with
  | nil => rfl
  | cons w rest ih =>
    have hw : silence_threshold < w.2 := h w (List.mem_cons_self w rest)
    rw [List.foldl_cons]
    have hstep : silenceStep silence_threshold min_silence_duration
        ⟨segments, false, start⟩ w = ⟨segments, false, start⟩ := by
      unfold silenceStep
      rw [if_neg (by simp), if_neg (by simp [not_le.mpr hw])]
    rw [hstep]
    exact ih fun v hv => h v (List.mem_cons_of_mem w hv)

/-- C2 counterexample: a trace with a single 0.1s window of amplitude
`-10 dB`, entirely above the `-40 dB` threshold, over total duration
`D = 1/10 < min_silence_duration = 1/2`: the claim demands the empty result,
but the terminal emission of `remove_silence` performs no duration check and
returns the segment `[0, D]`. -/
theorem remove_silence_short_trace_not_empty :
    remove_silence_segments (-40) (1 / 2) (1 / 10) [(0, -10)] =
        [((0 : ℚ), (1 / 10 : ℚ))] ∧
      (1 / 10 : ℚ) < 1 / 2 := by
  constructor
  · unfold remove_silence_segments
    rw [List.foldl_cons, List.foldl_nil]
    have hstep : silenceStep (-40) (1 / 2) ⟨[], true, 0⟩ ((0 : ℚ), (-10 : ℚ)) =
        ⟨[], false, 0⟩ := by
      unfold silenceStep
      rw [if_pos (by norm_num)]
    rw [hstep]
    simp
  · norm_num

/-- C2 amended: for every nonempty amplitude trace (first window at time `0`)
whose windows are all strictly above `silence_threshold`, `remove_silence`
returns exactly one segment `[0, D]`, where `D` is the trace's total
duration — regardless of how `D` compares with `min_silence_duration`, since
the terminal emission applies no duration check. -/
theorem remove_silence_all_above_threshold (silence_threshold
    min_silence_duration D a : ℚ) (rest : List (ℚ × ℚ))
    (ha : silence_threshold < a) (hrest : ∀ w ∈ rest, silence_threshold < w.2) :
    remove_silence_segments silence_threshold min_silence_duration D
        ((0, a) :: rest) = [(0, D)] := by
  unfold remove_silence_segments
  rw [List.foldl_cons]
  have hstep : silenceStep silence_threshold min_silence_duration ⟨[], true, 0⟩
      ((0 : ℚ), a) = ⟨[], false, 0⟩ := by
    unfold silenceStep
    rw [if_pos (by simpa using ha)]
  rw [hstep, silence_foldl_above_threshold _ _ _ _ _ hrest]
  simp

/-- C2 amended, witness: a two-window trace above the `-40 dB` threshold over
duration `D = 1` yields exactly `[0, 1]`. -/
theorem remove_silence_all_above_threshold_witness :
    remove_silence_segments (-40) (1 / 2) 1 [(0, -10), (1 / 10, -20)] =
      [((0 : ℚ), (1 : ℚ))] :=
  remove_silence_all_above_threshold (-40) (1 / 2) 1 (-10) [(1 / 10, -20)]
    (by norm_num)
    (by intro w hw; simp only [List.mem_singleton] at hw; subst hw; norm_num)

/-- Invariant of the silence machine relative to a bound `c` lying strictly
below every window time still to be processed: the emitted segments are
well-formed (`start < end`), pairwise ordered and non-overlapping, all ending
at or before `c`; and while in the non-silent state the pending
`segment_start` lies at or after every emitted end and at or before `c`. -/
def SpanInv (s : SilenceState) (c : ℚ) : Prop :=
  (∀ seg ∈ s.segments, seg.1 < seg.2) ∧
  s.segments.Pairwise (fun x y : ℚ × ℚ => x.2 ≤ y.1) ∧
  (∀ seg ∈ s.segments, seg.2 ≤ c) ∧
  (s.is_silent = false →
    (∀ seg ∈ s.segments, seg.2 ≤ s.segment_start) ∧ s.segment_start ≤ c)

lemma spanInv_step (silence_threshold min_silence_duration : ℚ)
    (s : SilenceState) (c : ℚ) (w : ℚ × ℚ) (hs : SpanInv s c) (hw : c < w.1) :
    SpanInv (silenceStep silence_threshold min_silence_duration s w) w.1 := by
  obtain ⟨h1, h2, h3, h4⟩ := hs
  unfold silenceStep
  split_ifs with hc1 hc2 hc3
  · -- silent-to-non-silent transition: record the start at the window time
    refine ⟨h1, h2, fun seg hseg => (h3 seg hseg).trans hw.le, fun _ => ?_⟩
    exact ⟨fun seg hseg => (h3 seg hseg).trans hw.le, le_refl _⟩
  · -- non-silent-to-silent transition, long enough: emit the candidate
    have hns : s.is_silent = false := by
      rcases hc2 with ⟨hns, -⟩
      simpa using hns
    obtain ⟨h5, h6⟩ := h4 hns
    have hstart : s.segment_start < w.1 := lt_of_le_of_lt h6 hw
    refine ⟨?_, ?_, ?_, by intro hfalse; simp at hfalse⟩
    · intro seg hseg
      rcases List.mem_append.mp hseg with hseg | hseg
      · exact h1 seg hseg
      · simp only [List.mem_singleton] at hseg
        subst hseg
        exact hstart
    · rw [List.pairwise_append]
      refine ⟨h2, List.pairwise_singleton _ _, ?_⟩
      intro x hx y hy
      simp only [List.mem_singleton] at hy
      subst hy
      exact h5 x hx
    · intro seg hseg
      rcases List.mem_append.mp hseg with hseg | hseg
      · exact (h3 seg hseg).trans hw.le
      · simp only [List.mem_singleton] at hseg
        subst hseg
        exact le_refl _
  · -- non-silent-to-silent transition, too short: discard the candidate
    refine ⟨h1, h2, fun seg hseg => (h3 seg hseg).trans hw.le,
      by intro hfalse; simp at hfalse⟩
  · -- no transition: state unchanged, the bound advances to the window time
    refine ⟨h1, h2, fun seg hseg => (h3 seg hseg).trans hw.le, fun hns => ?_⟩
    exact ⟨(h4 hns).1, (h4 hns).2.trans hw.le⟩

lemma spanInv_foldl (silence_threshold min_silence_duration D : ℚ) :
    ∀ (trace : List (ℚ × ℚ)) (s : SilenceState) (c : ℚ), SpanInv s c → c < D →
      trace.Pairwise (fun x y : ℚ × ℚ => x.1 < y.1) →
      (∀ w ∈ trace, c < w.1 ∧ w.1 < D) →
      ∃ c', SpanInv
          (trace.foldl (silenceStep silence_threshold min_silence_duration) s) c' ∧
        c' < D
  | [], s, c, hs, hcD, _, _ => ⟨c, hs, hcD⟩
  | w :: rest, s, c, hs, _, hsort, hgt => by
    have hw : c < w.1 ∧ w.1 < D := hgt w (List.mem_cons_self w rest)
    have hs1 := spanInv_step silence_threshold min_silence_duration s c w hs hw.1
    have hpair := List.pairwise_cons.mp hsort
    rw [List.foldl_cons]
    exact spanInv_foldl silence_threshold min_silence_duration D rest _ w.1 hs1
      hw.2 hpair.2 fun v hv => ⟨hpair.1 v hv, (hgt v (List.mem_cons_of_mem w hv)).2⟩

/-- C7: for every amplitude trace whose window times are strictly increasing
and lie strictly below the total duration `D`, the kept spans emitted by
`remove_silence` are well-formed and ordered: each span has `start < end`,
and each span starts at or after the previous span's end. -/
theorem remove_silence_spans_ordered (silence_threshold min_silence_duration
    D : ℚ) (trace : List (ℚ × ℚ))
    (hsort : trace.Pairwise (fun x y : ℚ × ℚ => x.1 < y.1))
    (hD : ∀ w ∈ trace, w.1 < D) :
    (∀ s ∈ remove_silence_segments silence_threshold min_silence_duration D
      trace, s.1 < s.2) ∧
    List.Chain' (fun x y : ℚ × ℚ => x.2 ≤ y.1)
      (remove_silence_segments silence_threshold min_silence_duration D trace) := by
  unfold remove_silence_segments
  rcases trace with _ | ⟨w0, rest⟩
  · simp
  · have hw0D : w0.1 < D := hD w0 (List.mem_cons_self w0 rest)
    have hinv : SpanInv ⟨[], true, 0⟩ (w0.1 - 1) := by
      refine ⟨by simp, by simp, by simp, by intro hfalse; simp at hfalse⟩
    have hside : ∀ w ∈ w0 :: rest, w0.1 - 1 < w.1 ∧ w.1 < D := by
      intro w hw
      rcases List.mem_cons.mp hw with hw | hw
      · subst hw
        exact ⟨by linarith, hw0D⟩
      · have := (List.pairwise_cons.mp hsort).1 w hw
        exact ⟨by linarith, hD w (List.mem_cons_of_mem w0 hw)⟩
    obtain ⟨c', ⟨h1, h2, h3, h4⟩, hc'D⟩ :=
      spanInv_foldl silence_threshold min_silence_duration D (w0 :: rest)
        ⟨[], true, 0⟩ (w0.1 - 1) hinv (by linarith) hsort hside
    set final := (w0 :: rest).foldl
      (silenceStep silence_threshold min_silence_duration) ⟨[], true, 0⟩ with hfinal
    rcases hsil : final.is_silent with _ | _
    · -- trace ends in the non-silent state: the terminal segment is appended
      obtain ⟨h5, h6⟩ := h4 hsil
      simp only [hsil, Bool.false_eq_true, if_false]
      constructor
      · intro seg hseg
        rcases List.mem_append.mp hseg with hseg | hseg
        · exact h1 seg hseg
        · simp only [List.mem_singleton] at hseg
          subst hseg
          exact lt_of_le_of_lt h6 hc'D
      · refine List.Pairwise.chain' ?_
        rw [List.pairwise_append]
        refine ⟨h2, List.pairwise_singleton _ _, ?_⟩
        intro x hx y hy
        simp only [List.mem_singleton] at hy
        subst hy
        exact h5 x hx
    · simp only [hsil, if_true]
      exact ⟨h1, List.Pairwise.chain' h2⟩

/-- C7 witness: a two-window trace (loud then quiet) over duration `1/5`
yields the single well-formed span `[0, 1/10]`. -/
theorem remove_silence_spans_ordered_witness :
    (∀ s ∈ remove_silence_segments (-40) 0 (1 / 5) [(0, -10), (1 / 10, -50)],
      s.1 < s.2) ∧
    List.Chain' (fun x y : ℚ × ℚ => x.2 ≤ y.1)
      (remove_silence_segments (-40) 0 (1 / 5) [(0, -10), (1 / 10, -50)]) :=
  remove_silence_spans_ordered (-40) 0 (1 / 5) [(0, -10), (1 / 10, -50)]
    (by norm_num)
    (by intro w hw
        rcases List.mem_cons.mp hw with hw | hw
        · subst hw; norm_num
        · simp only [List.mem_singleton] at hw; subst hw; norm_num)

/-- A clip handle as assembled by `render_final_video`
(lines 230-268 of `video_processing.py`): one of the clips loaded from
`clip_paths` (by position), the optional intro or outro clip, or a
`subclip(start_time, end_time?)` of a base clip, where `none` as the second
bound means "to the end of the clip" (the one-argument form
`clips[clip_index].subclip(start_time)`). -/
inductive ClipRef where
  | source : ℕ → ClipRef
  | intro : ClipRef
  | outro : ClipRef
  | sub : ClipRef → ℚ → Option ℚ → ClipRef
deriving DecidableEq

/-- One entry of `arrangement["sequence"]` (lines 249-252): `clip_index` as
read from the JSON, `start_time` after its `.get("start_time", 0)` default,
and `end_time` from `.get("end_time")`, which yields `None` (modelled
`none`) when the key is absent. -/
structure ArrangementItem where
  clip_index : ℤ
  start_time : ℚ
  end_time : Option ℚ
deriving DecidableEq

/-- Python truthiness of the `end_time` value as used by `if end_time:`
(line 255): `None` and `0` (or `0.0`) are falsy, every other number is
truthy. -/
def pyTruthy : Option ℚ → Bool
  | none => false
  | some v => if v = 0 then false else true

/-- Loop body of the arrangement loop (lines 249-258): an in-range
`clip_index` appends a subclip of the referenced base clip — two-argument
`subclip(start_time, end_time)` when `end_time` is truthy, one-argument
`subclip(start_time)` otherwise — and an out-of-range index is skipped. -/
def arrangeStep (base : List ClipRef) (acc : List ClipRef)
    (item : ArrangementItem) : List ClipRef :=
  if 0 ≤ item.clip_index ∧ item.clip_index < (base.length : ℤ) then
    let c := base.getD item.clip_index.toNat ClipRef.intro
    if pyTruthy item.end_time then
      acc ++ [ClipRef.sub c item.start_time item.end_time]
    else
      acc ++ [ClipRef.sub c item.start_time none]
  else acc

/-- The arranged clip list built by `render_final_video` from
`arrangement["sequence"]` (lines 248-258). -/
def arrangeClips (base : List ClipRef) (seq : List ArrangementItem) :
    List ClipRef :=
  seq.foldl (arrangeStep base) []

/-- The base clip list of `render_final_video` (lines 233-243): the clips
of `clip_paths` in order, with the intro prepended and the outro appended
when present. -/
def baseClipList (nClips : ℕ) (hasIntro hasOutro : Bool) : List ClipRef :=
  let clips0 := (List.range nClips).map ClipRef.source
  let clips1 := if hasIntro then ClipRef.intro :: clips0 else clips0
  if hasOutro then clips1 ++ [ClipRef.outro] else clips1

/-- The ordered clip list that `render_final_video` concatenates
(lines 230-268): when an arrangement is supplied its arranged list replaces
the base list, but only if the arranged list is non-empty (`if
arranged_clips:`, line 261) — otherwise the base list is kept and rendered. -/
def render_final_video (nClips : ℕ) (hasIntro hasOutro : Bool)
    (arrangement : Option (List ArrangementItem)) : List ClipRef :=
  let base := baseClipList nClips hasIntro hasOutro
  match arrangement with
  | none => base
  | some seq =>
    let arranged := arrangeClips base seq
    if arranged.isEmpty then base else arranged

/-- C5 counterexample: an arrangement whose only entry references
`clip_index = 5` against a 2-clip base list is skipped, the arranged list is
empty, and `render_final_video` does not fail with an empty-result error: it
silently falls back to rendering the base list of both clips. -/
theorem render_all_skipped_returns_base :
    render_final_video 2 false false (some [⟨5, 0, none⟩]) =
      [ClipRef.source 0, ClipRef.source 1] := by
  rfl

lemma arrangeClips_foldl_out_of_range (base : List ClipRef)
    (seq : List ArrangementItem)
    (h : ∀ item ∈ seq,
      ¬ (0 ≤ item.clip_index ∧ item.clip_index < (base.length : ℤ))) :
    ∀ acc : List ClipRef, seq.foldl (arrangeStep base) acc = acc := by
  induction seq with
  | nil => intro acc; rfl
  | cons item rest ih =>
    intro acc
    rw [List.foldl_cons]
    have hstep : arrangeStep base acc item = acc :=
      if_neg (h item (List.mem_cons_self item rest))
    rw [hstep]
    exact ih (fun i hi => h i (List.mem_cons_of_mem item hi)) acc

/-- C5 amended: an arrangement entry whose `clip_index` is out of range for
the base clip list is skipped without failing; but when every entry is
skipped the arranged list is empty and `render_final_video` does not fail:
the arrangement is ignored and the base clip list (unchanged, as if no
arrangement had been supplied) is rendered. -/
theorem render_all_skipped_falls_back (nClips : ℕ) (hasIntro hasOutro : Bool)
    (seq : List ArrangementItem)
    (h : ∀ item ∈ seq, ¬ (0 ≤ item.clip_index ∧
      item.clip_index < ((baseClipList nClips hasIntro hasOutro).length : ℤ))) :
    render_final_video nClips hasIntro hasOutro (some seq) =
      render_final_video nClips hasIntro hasOutro none := by
  have harr : arrangeClips (baseClipList nClips hasIntro hasOutro) seq = [] :=
    arrangeClips_foldl_out_of_range (baseClipList nClips hasIntro hasOutro) seq h []
  show (let arranged := arrangeClips (baseClipList nClips hasIntro hasOutro) seq
    if arranged.isEmpty then baseClipList nClips hasIntro hasOutro else arranged) =
      baseClipList nClips hasIntro hasOutro
  rw [harr]
  rfl

/-- C5 amended, witness: a single out-of-range entry (`clip_index = 3`
against a one-clip base list) is skipped and the base list is rendered. -/
theorem render_all_skipped_falls_back_witness :
    render_final_video 1 false false (some [⟨3, 0, none⟩]) =
      render_final_video 1 false false none :=
  render_all_skipped_falls_back 1 false false [⟨3, 0, none⟩]
    (by intro item hi
        simp only [List.mem_singleton] at hi
        subst hi
        simp [baseClipList])

/-- C10: an arrangement entry with `end_time = 0` — a falsy value, like the
absent field — is treated exactly as if `end_time` were absent, because
line 255 tests `if end_time:` (truthiness) rather than field presence: the
produced sub-clip is the one-argument `subclip(start_time)` running to the
end of the referenced clip, never the empty range `[start_time, 0)`. -/
theorem arrangement_zero_end_time_runs_to_clip_end (base : List ClipRef)
    (i : ℤ) (s : ℚ) (h0 : 0 ≤ i) (h1 : i < (base.length : ℤ)) :
    arrangeClips base [⟨i, s, some 0⟩] = arrangeClips base [⟨i, s, none⟩] ∧
    arrangeClips base [⟨i, s, some 0⟩] =
      [ClipRef.sub (base.getD i.toNat ClipRef.intro) s none] := by
  have hcase : arrangeClips base [⟨i, s, some 0⟩] =
      [ClipRef.sub (base.getD i.toNat ClipRef.intro) s none] := by
    unfold arrangeClips arrangeStep
    rw [List.foldl_cons, List.foldl_nil]
    simp only [if_pos (And.intro h0 h1)]
    norm_num [pyTruthy]
  have hnone : arrangeClips base [⟨i, s, none⟩] =
      [ClipRef.sub (base.getD i.toNat ClipRef.intro) s none] := by
    unfold arrangeClips arrangeStep
    rw [List.foldl_cons, List.foldl_nil]
    simp only [if_pos (And.intro h0 h1)]
    norm_num [pyTruthy]
  exact ⟨hcase.trans hnone.symm, hcase⟩

/-- C10 witness: against a one-clip base list, the entry
`clip_index = 0, start_time = 1, end_time = 0` yields the sub-clip
`subclip(1)` running to the end of clip 0. -/
theorem arrangement_zero_end_time_runs_to_clip_end_witness :
    arrangeClips [ClipRef.source 0] [⟨0, 1, some 0⟩] =
        arrangeClips [ClipRef.source 0] [⟨0, 1, none⟩] ∧
      arrangeClips [ClipRef.source 0] [⟨0, 1, some 0⟩] =
        [ClipRef.sub (ClipRef.source 0) 1 none] :=
  arrangement_zero_end_time_runs_to_clip_end [ClipRef.source 0] 0 1
    (by norm_num) (by norm_num)

/-- ASCII whitespace as recognised by Python's `str.strip` and no-argument
`str.split`: space, tab, newline, carriage return, vertical tab, form feed. -/
def isPySpace (c : Char) : Bool :=
  c = ' ' || c = '\t' || c = '\n' || c = '\x0d' || c = '\x0b' || c = '\x0c'

/-- Python's `str.strip()`: remove leading and trailing whitespace. -/
def pyStrip (l : List Char) : List Char :=
  ((l.dropWhile isPySpace).reverse.dropWhile isPySpace).reverse

/-- Worker for `pySplit`, with explicit fuel (one unit per consumed
character, so `l.length` suffices for a non-empty separator).  Scans left to
right; at each leftmost occurrence of the separator the accumulated chunk is
emitted and the separator consumed, matching Python's `str.split(sep)`. -/
def pySplitAux (sep : List Char) : ℕ → List Char → List Char → List (List Char)
  | _, acc, [] => [acc]
  | 0, acc, _ :: _ => [acc]
  | fuel + 1, acc, c :: rest =>
    if sep.isPrefixOf (c :: rest) then
      acc :: pySplitAux sep fuel [] ((c :: rest).drop sep.length)
    else
      pySplitAux sep fuel (acc ++ [c]) rest

/-- Python's `str.split(sep)` for a non-empty separator `sep`. -/
def pySplit (sep l : List Char) : List (List Char) :=
  pySplitAux sep l.length [] l

/-- Python's `len(line.split())`: the number of maximal whitespace-free runs.
The boolean argument records whether the scan is currently inside a run. -/
def wordCountAux : List Char → Bool → ℕ
  | [], _ => 0
  | c :: rest, inWord =>
    if isPySpace c then wordCountAux rest false
    else if inWord then wordCountAux rest true
    else wordCountAux rest true + 1

/-- Word count of a line, as `len(line.split())` computes it. -/
def pyWordCount (l : List Char) : ℕ :=
  wordCountAux l false

/-- A timed caption as built by `process_plain_text_transcript` of
`subtitles.py` (lines 102-106): the dictionary
`{"start_time": ..., "end_time": ..., "text": ...}`. -/
structure Caption where
  start_time : ℚ
  end_time : ℚ
  text : List Char
deriving DecidableEq

/-- The line-splitting step of `process_plain_text_transcript`
(lines 82-84 of `subtitles.py`): split the stripped transcript on blank-line
boundaries (`"\n\n"`); when that yields at most one block, split on single
newlines instead. -/
def plain_text_lines (transcript : List Char) : List (List Char) :=
  let stripped := pyStrip transcript
  let lines := pySplit ['\n', '\n'] stripped
  if lines.length ≤ 1 then pySplit ['\n'] stripped else lines

/-- Loop body of `process_plain_text_transcript` (lines 91-108): strip the
line, skip it when empty, otherwise append a caption of duration
`max(word_count / 2.5, 1.0)` starting at the running clock and advance the
clock.  The state is the pair (captions so far, `current_time`). -/
def subtitleStep (acc : List Caption × ℚ) (l : List Char) : List Caption × ℚ :=
  let line := pyStrip l
  if line = [] then acc
  else
    let word_count := pyWordCount line
    let duration := max ((word_count : ℚ) / (5 / 2)) 1
    (acc.1 ++ [⟨acc.2, acc.2 + duration, line⟩], acc.2 + duration)

/-- `process_plain_text_transcript` (lines 77-110 of `subtitles.py`): the
timed captions synthesised from a plain-text transcript, starting the
running clock at `0`. -/
def process_plain_text_transcript (transcript : List Char) : List Caption :=
  ((plain_text_lines transcript).foldl subtitleStep ([], 0)).1

/-- Structural form of the caption loop: captions produced from the given
lines with the running clock starting at `t`. -/
def buildCaptions : ℚ → List (List Char) → List Caption
  | _, [] => []
  | t, l :: rest =>
    let line := pyStrip l
    if line = [] then buildCaptions t rest
    else
      let duration := max ((pyWordCount line : ℚ) / (5 / 2)) 1
      ⟨t, t + duration, line⟩ :: buildCaptions (t + duration) rest

/-- The running-clock law of the synthesised captions: the first caption
starts at the given clock value, every caption's duration is
`max(word_count / 2.5, 1)` for its own text, and each subsequent caption
starts where the previous one ended. -/
def captionsLaw : ℚ → List Caption → Prop
  | _, [] => True
  | t, c :: rest =>
    c.start_time = t ∧
    c.end_time = c.start_time + max ((pyWordCount c.text : ℚ) / (5 / 2)) 1 ∧
    captionsLaw c.end_time rest

lemma subtitle_foldl_eq_build (lines : List (List Char)) :
    ∀ (acc : List Caption) (t : ℚ),
      (lines.foldl subtitleStep (acc, t)).1 = acc ++ buildCaptions t lines := by
  induction lines with
  | nil =>
    intro acc t
    simp [buildCaptions]
  | cons l rest ih =>
    intro acc t
    rw [List.foldl_cons]
    by_cases hl : pyStrip l = []
    · have hstep : subtitleStep (acc, t) l = (acc, t) := by
        unfold subtitleStep
        rw [if_pos hl]
      rw [hstep, ih, buildCaptions, if_pos hl]
    · have hstep : subtitleStep (acc, t) l =
          (acc ++ [⟨t, t + max ((pyWordCount (pyStrip l) : ℚ) / (5 / 2)) 1,
            pyStrip l⟩], t + max ((pyWordCount (pyStrip l) : ℚ) / (5 / 2)) 1) := by
        unfold subtitleStep
        rw [if_neg hl]
      rw [hstep, ih, buildCaptions, if_neg hl]
      simp

lemma captionsLaw_buildCaptions (lines : List (List Char)) :
    ∀ t : ℚ, captionsLaw t (buildCaptions t lines) := by
  induction lines with
  | nil =>
    intro t
    unfold buildCaptions captionsLaw
    trivial
  | cons l rest ih =>
    intro t
    unfold buildCaptions
    by_cases hl : pyStrip l = []
    · rw [if_pos hl]
      exact ih t
    · rw [if_neg hl]
      exact ⟨rfl, rfl, ih _⟩

/-- C8: the plain-text synthesiser splits the transcript
`"hello world\n\nfoo bar baz"` on its blank-line boundary (two blocks exist)
and yields exactly the captions `[0, 1, "hello world"]` (two words, `0.8s`
floored to `1s`) and `[1, 11/5, "foo bar baz"]` (three words, `1.2s`); and on
every transcript each caption's duration is `max(word_count / 2.5, 1)`
seconds with starts accumulating from the running clock beginning at `0`. -/
theorem process_plain_text_transcript_spec :
    process_plain_text_transcript "hello world\n\nfoo bar baz".data =
        [⟨0, 1, "hello world".data⟩, ⟨1, 11 / 5, "foo bar baz".data⟩] ∧
      ∀ transcript : List Char,
        captionsLaw 0 (process_plain_text_transcript transcript) := by
  constructor
  · have hlines : plain_text_lines "hello world\n\nfoo bar baz".data =
        ["hello world".data, "foo bar baz".data] := by rfl
    have hs1 : pyStrip "hello world".data = "hello world".data := by rfl
    have hs2 : pyStrip "foo bar baz".data = "foo bar baz".data := by rfl
    have hw1 : pyWordCount "hello world".data = 2 := by rfl
    have hw2 : pyWordCount "foo bar baz".data = 3 := by rfl
    have hne1 : "hello world".data ≠ [] := by decide
    have hne2 : "foo bar baz".data ≠ [] := by decide
    unfold process_plain_text_transcript
    rw [hlines, List.foldl_cons]
    have hstep1 : subtitleStep (([] : List Caption), (0 : ℚ)) "hello world".data =
        ([⟨0, 1, "hello world".data⟩], 1) := by
      unfold subtitleStep
      rw [hs1, if_neg hne1, hw1]
      norm_num
    rw [hstep1, List.foldl_cons, List.foldl_nil]
    have hstep2 : subtitleStep ([⟨0, 1, "hello world".data⟩], (1 : ℚ))
        "foo bar baz".data =
        ([⟨0, 1, "hello world".data⟩, ⟨1, 11 / 5, "foo bar baz".data⟩], 11 / 5) := by
      unfold subtitleStep
      rw [hs2, if_neg hne2, hw2]
      norm_num
    rw [hstep2]
  · intro transcript
    unfold process_plain_text_transcript
    rw [subtitle_foldl_eq_build]
    simpa using captionsLaw_buildCaptions (plain_text_lines transcript) 0

/-- Total microseconds stored by `datetime.timedelta(seconds=t)` in
`format_time` (line 137 of `subtitles.py`): `timedelta` represents its value
as an integer number of microseconds, rounding the fractional seconds to the
nearest microsecond (ties in Python round half to even; the half-up rounding
used here agrees with it everywhere except at exact half-microsecond ties,
which differ by one microsecond and are irrelevant at the millisecond
claims below). -/
def timedelta_microseconds (t : ℚ) : ℤ :=
  ⌊t * 1000000 + 1 / 2⌋

/-- The four numeric fields `(hours, minutes, seconds, milliseconds)` of the
timestamp rendered by `format_time` (lines 135-142 of `subtitles.py`):
`td.seconds` is the timedelta's seconds-within-the-day, i.e. the total whole
seconds modulo 86400 (whole days are stored separately in `td.days` and are
discarded by `format_time`); `td.microseconds` is the sub-second remainder;
`hours, minutes, seconds` come from `divmod` by 3600 and 60, and
`milliseconds = td.microseconds // 1000`.  Integer `/` and `%` here agree
with Python's floor division and modulo on the nonnegative divisors used. -/
def format_time_fields (t : ℚ) : ℤ × ℤ × ℤ × ℤ :=
  let mu := timedelta_microseconds t
  let td_seconds := mu / 1000000 % 86400
  let td_microseconds := mu % 1000000
  let hours := td_seconds / 3600
  let remainder := td_seconds % 3600
  let minutes := remainder / 60
  let seconds := remainder % 60
  let milliseconds := td_microseconds / 1000
  (hours, minutes, seconds, milliseconds)

/-- Reparsing an `HH:MM:SS,mmm` timestamp line of format A (SRT) back to
seconds.  For the in-range field values produced by `format_time` the
two-digit rendering `f"{hours:02}:{minutes:02}:{seconds:02},{milliseconds:03}"`
is injective, so parsing is modelled directly on the four numeric fields. -/
def parse_srt_timestamp (h m s ms : ℤ) : ℚ :=
  (h : ℚ) * 3600 + (m : ℚ) * 60 + (s : ℚ) + (ms : ℚ) / 1000

/-- Serialising a caption time with `format_time` and reparsing the
timestamp, as one function of the original time. -/
def srt_round_trip (t : ℚ) : ℚ :=
  parse_srt_timestamp (format_time_fields t).1 (format_time_fields t).2.1
    (format_time_fields t).2.2.1 (format_time_fields t).2.2.2

/-- C6 counterexample: a caption time of `86400` seconds (24 hours) is
serialised by `format_time` as `00:00:00,000` — `timedelta.seconds` wraps at
one day and `format_time` ignores `timedelta.days` — so reparsing yields `0`,
off by a day rather than within a millisecond. -/
theorem srt_round_trip_wraps_at_one_day :
    srt_round_trip 86400 = 0 ∧
      ¬ (|(86400 : ℚ) - srt_round_trip 86400| < 1 / 1000) := by
  have hmu : timedelta_microseconds 86400 = 86400000000 := by
    unfold timedelta_microseconds
    rw [Int.floor_eq_iff]
    norm_num
  have hval : srt_round_trip 86400 = 0 := by
    simp only [srt_round_trip, format_time_fields, parse_srt_timestamp, hmu]
    norm_num
  refine ⟨hval, ?_⟩
  rw [hval]
  norm_num

/-- C6 amended: for every caption time `t` with `0 ≤ t` and
`t + 1/1000 ≤ 86400` (i.e. at least one millisecond below the 24-hour wrap
of `timedelta.seconds`), serialising with `format_time` and reparsing the
timestamp recovers `t` to millisecond precision: the reparsed value differs
from `t` by strictly less than `1/1000` of a second. -/
theorem srt_round_trip_millisecond (t : ℚ) (h0 : 0 ≤ t)
    (h1 : t + 1 / 1000 ≤ 86400) :
    |t - srt_round_trip t| < 1 / 1000 := by
  simp only [srt_round_trip, format_time_fields, parse_srt_timestamp]
  set n := timedelta_microseconds t with hn
  have hfl : (n : ℚ) ≤ t * 1000000 + 1 / 2 := by
    rw [hn]
    exact Int.floor_le _
  have hfg : t * 1000000 + 1 / 2 - 1 < (n : ℚ) := by
    rw [hn]
    exact Int.sub_one_lt_floor _
  have hn0 : (0 : ℤ) ≤ n := by
    have h2 : (-1 : ℚ) < (n : ℚ) := by linarith
    have h3 : (-1 : ℤ) < n := by exact_mod_cast h2
    omega
  have hn1 : n < 86400000000 := by
    have h2 : (n : ℚ) < 86400000000 := by linarith
    exact_mod_cast h2
  have key : 1000000 * ((n / 1000000 % 86400 / 3600) * 3600 +
        (n / 1000000 % 86400 % 3600 / 60) * 60 + n / 1000000 % 86400 % 3600 % 60) +
      1000 * (n % 1000000 / 1000) + n % 1000 = n := by
    omega
  have keyQ : (1000000 : ℚ) * (((n / 1000000 % 86400 / 3600 : ℤ) : ℚ) * 3600 +
        ((n / 1000000 % 86400 % 3600 / 60 : ℤ) : ℚ) * 60 +
        ((n / 1000000 % 86400 % 3600 % 60 : ℤ) : ℚ)) +
      1000 * ((n % 1000000 / 1000 : ℤ) : ℚ) + ((n % 1000 : ℤ) : ℚ) = (n : ℚ) := by
    exact_mod_cast key
  have hq0 : (0 : ℚ) ≤ ((n % 1000 : ℤ) : ℚ) := by
    have : (0 : ℤ) ≤ n % 1000 := by omega
    exact_mod_cast this
  have hq1 : ((n % 1000 : ℤ) : ℚ) ≤ 999 := by
    have : (n % 1000 : ℤ) ≤ 999 := by omega
    exact_mod_cast this
  rw [abs_lt]
  constructor
  · linarith
  · linarith

/-- C6 amended, witness at `t = 1/2` second. -/
theorem srt_round_trip_millisecond_witness :
    |(1 / 2 : ℚ) - srt_round_trip (1 / 2)| < 1 / 1000 :=
  srt_round_trip_millisecond (1 / 2) (by norm_num) (by norm_num)
